import Mathlib

/-!
Shallow embedding of `scripts/ppm_transform.py`.

A pixel buffer is a dense list of integer channel values, row-major, three
channels per pixel.  Python floats are modelled by exact rationals `ℚ`;
Python integers by `ℤ`/`ℕ`.  Fallible operations (list indexing that can
raise `IndexError`, the float division `1.0 / scale` that can raise
`ZeroDivisionError`) return `Option`.
-/

abbrev Pixels := List ℤ

def EPSILON : ℚ := 1 / 1000000000

/-- `nearly_equal` from the source: `abs(a - b) < EPSILON`. -/
def nearly_equal (a b : ℚ) : Prop := |a - b| < EPSILON

instance nearly_equal.instDecidable (a b : ℚ) : Decidable (nearly_equal a b) :=
  inferInstanceAs (Decidable (|a - b| < EPSILON))

/-- Python's builtin `round` on a float: nearest integer, ties to even. -/
def py_round (q : ℚ) : ℤ :=
  if q - ⌊q⌋ < 1/2 then ⌊q⌋
  else if 1/2 < q - ⌊q⌋ then ⌊q⌋ + 1
  else if ⌊q⌋ % 2 = 0 then ⌊q⌋ else ⌊q⌋ + 1

/-- Python slice read `l[i : i+3]` (for `0 ≤ i`). -/
def slice_get3 (l : Pixels) (i : ℕ) : Pixels := (l.drop i).take 3

/-- Python slice assignment `l[i : i+3] = t` (for `0 ≤ i`). -/
def slice_set3 (l : Pixels) (i : ℕ) (t : Pixels) : Pixels :=
  l.take i ++ t ++ l.drop (i + 3)

/-- Python list indexing `l[i]`: negative indices count from the end,
an index outside `[-len, len)` raises `IndexError` (modelled as `none`). -/
def getZ (l : Pixels) (i : ℤ) : Option ℤ :=
  let j : ℤ := if i < 0 then i + l.length else i
  if 0 ≤ j then l[j.toNat]? else none

/-- Abstract model of `random.Random(seed)`: the seeded generator is a
pre-determined sequence of draws, indexed by how many draws were consumed
before.  `rnd k` is the value the `k`-th draw yields when consumed by
`random()` (a value in `[0,1)`); `rvals k` is the raw value the `k`-th draw
yields when consumed by `randrange` (reduced mod the range size). -/
structure RNG where
  rnd : ℕ → ℚ
  rvals : ℕ → ℕ

/-- Coordinates `(x, y)` of the loop nest `for y in range(h): for x in range(w)`. -/
def rowMajor (w h : ℕ) : List (ℕ × ℕ) :=
  (List.range h).flatMap fun y => (List.range w).map fun x => (x, y)

/-- Coordinates `(x, y)` of the loop nest `for x in range(w): for y in range(h)`. -/
def colMajor (w h : ℕ) : List (ℕ × ℕ) :=
  (List.range w).flatMap fun x => (List.range h).map fun y => (x, y)

/-- One channel of `bilinear_sample` (the body of its `for channel` loop;
the clamped coordinates and corner indices match the source exactly). -/
def bilinearChannel (pixels : Pixels) (width height : ℕ) (fx fy : ℚ)
    (channel : ℕ) : Option ℤ :=
  let fx := min (max fx 0) ((width : ℚ) - 1)
  let fy := min (max fy 0) ((height : ℚ) - 1)
  let x0 : ℤ := ⌊fx⌋
  let y0 : ℤ := ⌊fy⌋
  let x1 : ℤ := min ((width : ℤ) - 1) (x0 + 1)
  let y1 : ℤ := min ((height : ℤ) - 1) (y0 + 1)
  let dx : ℚ := fx - (x0 : ℚ)
  let dy : ℚ := fy - (y0 : ℚ)
  do
    let p00 ← getZ pixels ((y0 * width + x0) * 3 + channel)
    let p10 ← getZ pixels ((y0 * width + x1) * 3 + channel)
    let p01 ← getZ pixels ((y1 * width + x0) * 3 + channel)
    let p11 ← getZ pixels ((y1 * width + x1) * 3 + channel)
    let top : ℚ := (p00 : ℚ) + ((p10 : ℚ) - (p00 : ℚ)) * dx
    let bottom : ℚ := (p01 : ℚ) + ((p11 : ℚ) - (p01 : ℚ)) * dx
    let value : ℚ := top + (bottom - top) * dy
    pure (py_round (min 255 (max 0 value)))

/-- `bilinear_sample` from the source. -/
def bilinear_sample (pixels : Pixels) (width height : ℕ) (fx fy : ℚ) :
    Option Pixels := do
  let c0 ← bilinearChannel pixels width height fx fy 0
  let c1 ← bilinearChannel pixels width height fx fy 1
  let c2 ← bilinearChannel pixels width height fx fy 2
  pure [c0, c1, c2]

/-- The loop nest of `scale_image`. -/
def scaleLoop (pixels : Pixels) (width height : ℕ) (invx invy : ℚ) (nw : ℕ) :
    List (ℕ × ℕ) → Pixels → Option Pixels
  | [], acc => some acc
  | (x, y) :: rest, acc =>
    let srcY := ((y : ℚ) + 1/2) * invy - 1/2
    let srcX := ((x : ℚ) + 1/2) * invx - 1/2
    (bilinear_sample pixels width height srcX srcY).bind fun t =>
      scaleLoop pixels width height invx invy nw rest
        (slice_set3 acc ((y * nw + x) * 3) t)

/-- `scale_image` from the source.  `none` models the `ZeroDivisionError`
raised by `1.0 / scale` at a factor of exactly 0 (and any `IndexError`
propagated from `bilinear_sample`). -/
def scale_image (pixels : Pixels) (width height : ℕ) (sx sy : ℚ) :
    Option (ℕ × ℕ × Pixels) :=
  if nearly_equal sx 1 ∧ nearly_equal sy 1 then some (width, height, pixels)
  else if sx = 0 ∨ sy = 0 then none
  else
    let nw : ℕ := (max 1 (py_round ((width : ℚ) * sx))).toNat
    let nh : ℕ := (max 1 (py_round ((height : ℚ) * sy))).toNat
    (scaleLoop pixels width height (1 / sx) (1 / sy) nw (rowMajor nw nh)
        (List.replicate (nw * nh * 3) 255)).map fun npx => (nw, nh, npx)

/-- The loop nest of `skew_horizontal`. -/
def skewHLoop (pixels : Pixels) (width nw : ℕ) (slope minShift : ℚ) :
    List (ℕ × ℕ) → Pixels → Pixels
  | [], acc => acc
  | (x, y) :: rest, acc =>
    let destX := py_round ((x : ℚ) + slope * (y : ℚ) - minShift)
    if destX < 0 ∨ (nw : ℤ) ≤ destX then
      skewHLoop pixels width nw slope minShift rest acc
    else
      skewHLoop pixels width nw slope minShift rest
        (slice_set3 acc ((y * nw + destX.toNat) * 3)
          (slice_get3 pixels ((y * width + x) * 3)))

/-- `skew_horizontal` from the source. -/
def skew_horizontal (pixels : Pixels) (width height : ℕ) (skew_amount : ℚ) :
    ℕ × ℕ × Pixels :=
  if nearly_equal skew_amount 0 ∨ height = 0 then (width, height, pixels)
  else
    let slope : ℚ := if height = 1 then 0 else skew_amount / ((height : ℚ) - 1)
    let minShift : ℚ := min 0 skew_amount
    let maxShift : ℚ := max 0 skew_amount
    let nw : ℕ := width + (Int.ceil (maxShift - minShift)).toNat
    (nw, height,
      skewHLoop pixels width nw slope minShift (rowMajor width height)
        (List.replicate (nw * height * 3) 255))

/-- The loop nest of `skew_vertical`. -/
def skewVLoop (pixels : Pixels) (width nh : ℕ) (slope minShift : ℚ) :
    List (ℕ × ℕ) → Pixels → Pixels
  | [], acc => acc
  | (x, y) :: rest, acc =>
    let destY := py_round ((y : ℚ) + slope * (x : ℚ) - minShift)
    if destY < 0 ∨ (nh : ℤ) ≤ destY then
      skewVLoop pixels width nh slope minShift rest acc
    else
      skewVLoop pixels width nh slope minShift rest
        (slice_set3 acc ((destY.toNat * width + x) * 3)
          (slice_get3 pixels ((y * width + x) * 3)))

/-- `skew_vertical` from the source. -/
def skew_vertical (pixels : Pixels) (width height : ℕ) (skew_amount : ℚ) :
    ℕ × ℕ × Pixels :=
  if nearly_equal skew_amount 0 ∨ width = 0 then (width, height, pixels)
  else
    let slope : ℚ := if width = 1 then 0 else skew_amount / ((width : ℚ) - 1)
    let minShift : ℚ := min 0 skew_amount
    let maxShift : ℚ := max 0 skew_amount
    let nh : ℕ := height + (Int.ceil (maxShift - minShift)).toNat
    (width, nh,
      skewVLoop pixels width nh slope minShift (colMajor width height)
        (List.replicate (nh * width * 3) 255))

/-- The loop nest of `rotate_image`. -/
def rotateLoop (pixels : Pixels) (width height : ℕ)
    (cosA sinA cx cy nx ny : ℚ) (nw : ℕ) :
    List (ℕ × ℕ) → Pixels → Option Pixels
  | [], acc => some acc
  | (x, y) :: rest, acc =>
    let rx := (x : ℚ) - nx
    let ry := (y : ℚ) - ny
    let srcX := cosA * rx + sinA * ry + cx
    let srcY := -sinA * rx + cosA * ry + cy
    if 0 ≤ srcX ∧ srcX ≤ (width : ℚ) - 1 ∧ 0 ≤ srcY ∧ srcY ≤ (height : ℚ) - 1 then
      (bilinear_sample pixels width height srcX srcY).bind fun t =>
        rotateLoop pixels width height cosA sinA cx cy nx ny nw rest
          (slice_set3 acc ((y * nw + x) * 3) t)
    else rotateLoop pixels width height cosA sinA cx cy nx ny nw rest acc

/-- `rotate_image` from the source.  The transcendental values
`cos(radians(degrees))` and `sin(radians(degrees))` are not rational, so the
embedding takes them as explicit parameters `cosA`, `sinA`; `degrees` itself
is only inspected by the `nearly_equal(degrees, 0.0)` guard, exactly as in
the source. -/
def rotate_image (pixels : Pixels) (width height : ℕ)
    (degrees cosA sinA : ℚ) : Option (ℕ × ℕ × Pixels) :=
  if nearly_equal degrees 0 then some (width, height, pixels)
  else
    let nw : ℕ :=
      (let r := py_round (|(width : ℚ) * cosA| + |(height : ℚ) * sinA|);
        if r = 0 then 1 else r).toNat
    let nh : ℕ :=
      (let r := py_round (|(width : ℚ) * sinA| + |(height : ℚ) * cosA|);
        if r = 0 then 1 else r).toNat
    let cx := ((width : ℚ) - 1) / 2
    let cy := ((height : ℚ) - 1) / 2
    let nx := ((nw : ℚ) - 1) / 2
    let ny := ((nh : ℚ) - 1) / 2
    (rotateLoop pixels width height cosA sinA cx cy nx ny nw
        (rowMajor nw nh) (List.replicate (nw * nh * 3) 255)).map fun npx =>
      (nw, nh, npx)

/-- The border-band membership test of `add_border_noise`. -/
def in_border_band (width height : ℕ) (thickness : ℤ) (x y : ℕ) : Prop :=
  (x : ℤ) < thickness ∨ (width : ℤ) - thickness ≤ (x : ℤ) ∨
  (y : ℤ) < thickness ∨ (height : ℤ) - thickness ≤ (y : ℤ)

instance in_border_band.instDecidable (width height : ℕ) (thickness : ℤ)
    (x y : ℕ) : Decidable (in_border_band width height thickness x y) :=
  inferInstanceAs (Decidable (_ ∨ _ ∨ _ ∨ _))

/-- The loop nest of `add_border_noise`; the second state component counts
the random draws consumed so far (the generator's position). -/
def borderLoop (width height : ℕ) (thickness : ℤ) (density : ℚ) (g : RNG) :
    List (ℕ × ℕ) → Pixels × ℕ → Pixels × ℕ
  | [], st => st
  | (x, y) :: rest, (px, k) =>
    if in_border_band width height thickness x y then
      if g.rnd k < density then
        let v : ℤ := (g.rvals (k + 1) % 256 : ℕ)
        borderLoop width height thickness density g rest
          (slice_set3 px ((y * width + x) * 3) [v, v, v], k + 2)
      else borderLoop width height thickness density g rest (px, k + 1)
    else borderLoop width height thickness density g rest (px, k)

/-- `add_border_noise` from the source, paired with the total number of
random draws the seeded generator served during the call. -/
def add_border_noise (pixels : Pixels) (width height : ℕ) (thickness : ℤ)
    (density : ℚ) (g : RNG) : Pixels × ℕ :=
  if thickness ≤ 0 ∨ density ≤ 0 then (pixels, 0)
  else
    borderLoop width height thickness (max 0 (min 1 density)) g
      (rowMajor width height) (pixels, 0)

/-- The loop nest of `apply_ink_blot`. -/
def blotLoop (width : ℕ) (cx cy : ℚ) (radiusSq : ℤ) (color : ℤ × ℤ × ℤ) :
    List (ℕ × ℕ) → Pixels → Pixels
  | [], acc => acc
  | (x, y) :: rest, acc =>
    let dx := (x : ℚ) - cx
    let dy := (y : ℚ) - cy
    if dx * dx + dy * dy ≤ (radiusSq : ℚ) then
      blotLoop width cx cy radiusSq color rest
        (slice_set3 acc ((y * width + x) * 3) [color.1, color.2.1, color.2.2])
    else blotLoop width cx cy radiusSq color rest acc

/-- `apply_ink_blot` from the source. -/
def apply_ink_blot (pixels : Pixels) (width height : ℕ) (radius : ℤ)
    (color : Option (ℤ × ℤ × ℤ)) : Pixels :=
  match color with
  | none => pixels
  | some c =>
    if radius ≤ 0 ∨ width = 0 ∨ height = 0 then pixels
    else
      blotLoop width (((width : ℚ) - 1) / 2) (((height : ℚ) - 1) / 2)
        (radius * radius) c (rowMajor width height) pixels

/-! ### Basic lemmas about the rounding and slice primitives -/

theorem floor_le_py_round (q : ℚ) : ⌊q⌋ ≤ py_round q := by
  unfold py_round
  split_ifs <;> omega

theorem py_round_le_floor_add_one (q : ℚ) : py_round q ≤ ⌊q⌋ + 1 := by
  unfold py_round
  split_ifs <;> omega

theorem py_round_nonneg {q : ℚ} (h : 0 ≤ q) : 0 ≤ py_round q :=
  le_trans (Int.le_floor.mpr (by exact_mod_cast h)) (floor_le_py_round q)

theorem py_round_le_ceil (q : ℚ) : py_round q ≤ ⌈q⌉ := by
  rcases lt_or_le (⌊q⌋ : ℚ) q with hlt | hle
  · exact le_trans (py_round_le_floor_add_one q)
      (by exact_mod_cast Int.add_one_le_iff.mpr (Int.lt_ceil.mpr hlt))
  · have hq : q - ⌊q⌋ < 1/2 := by
      have := Int.floor_le q
      have : q = (⌊q⌋ : ℚ) := le_antisymm hle this
      rw [this]; norm_num
    unfold py_round
    rw [if_pos hq]
    exact Int.floor_le_ceil q

theorem py_round_eq {q : ℚ} {n : ℤ} (h1 : (n : ℚ) - 1/2 < q)
    (h2 : q < (n : ℚ) + 1/2) : py_round q = n := by
  rcases le_or_lt (n : ℚ) q with hge | hlt
  · have hf : ⌊q⌋ = n := Int.floor_eq_iff.mpr ⟨hge, by linarith⟩
    have hfr : q - ((n : ℤ) : ℚ) < 1/2 := by linarith
    unfold py_round
    rw [hf, if_pos hfr]
  · have hf : ⌊q⌋ = n - 1 := by
      apply Int.floor_eq_iff.mpr
      constructor
      · push_cast; linarith
      · push_cast; linarith
    have hc1 : ¬(q - ((n - 1 : ℤ) : ℚ) < 1/2) := by push_cast; linarith
    have hc2 : 1/2 < q - ((n - 1 : ℤ) : ℚ) := by push_cast; linarith
    unfold py_round
    rw [hf, if_neg hc1, if_pos hc2]
    omega

theorem py_round_clamp_nonneg (q : ℚ) : 0 ≤ py_round (min 255 (max 0 q)) :=
  py_round_nonneg (le_min (by norm_num) (le_max_left 0 q))

theorem py_round_clamp_le (q : ℚ) : py_round (min 255 (max 0 q)) ≤ 255 := by
  refine le_trans (py_round_le_ceil _) ?_
  have : (min 255 (max 0 q) : ℚ) ≤ ((255 : ℤ) : ℚ) := by
    push_cast; exact min_le_left _ _
  calc ⌈min 255 (max 0 q)⌉ ≤ ⌈((255 : ℤ) : ℚ)⌉ := Int.ceil_le_ceil this
    _ = 255 := Int.ceil_intCast 255

theorem slice_set3_length {l t : Pixels} {i : ℕ} (h3 : t.length = 3)
    (hi : i + 3 ≤ l.length) : (slice_set3 l i t).length = l.length := by
  simp only [slice_set3, List.length_append, List.length_take, List.length_drop]
  omega

theorem getElem?_slice_set3 {l t : Pixels} {i : ℕ} (h3 : t.length = 3)
    (hi : i + 3 ≤ l.length) (j : ℕ) :
    (slice_set3 l i t)[j]? = if i ≤ j ∧ j < i + 3 then t[j - i]? else l[j]? := by
  unfold slice_set3
  have hlenA : (l.take i).length = i := by simp; omega
  have hlenAT : (l.take i ++ t).length = i + 3 := by
    simp only [List.length_append, h3, hlenA]
  rcases lt_or_le j i with hj | hj
  · rw [if_neg (by omega)]
    rw [List.getElem?_append_left (by omega : j < (l.take i ++ t).length),
      List.getElem?_append_left (by omega : j < (l.take i).length),
      List.getElem?_take_of_lt hj]
  · rcases lt_or_le j (i + 3) with hj2 | hj2
    · rw [if_pos ⟨hj, hj2⟩]
      rw [List.getElem?_append_left (by omega : j < (l.take i ++ t).length),
        List.getElem?_append_right (by omega : (l.take i).length ≤ j), hlenA]
    · rw [if_neg (by omega)]
      rw [List.getElem?_append_right (by omega : (l.take i ++ t).length ≤ j),
        hlenAT, List.getElem?_drop]
      congr 1
      omega

theorem slice_get3_length {l : Pixels} {i : ℕ} (hi : i + 3 ≤ l.length) :
    (slice_get3 l i).length = 3 := by
  simp only [slice_get3, List.length_take, List.length_drop]
  omega

theorem mem_rowMajor {w h x y : ℕ} : (x, y) ∈ rowMajor w h ↔ x < w ∧ y < h := by
  simp only [rowMajor, List.mem_flatMap, List.mem_map, List.mem_range, Prod.mk.injEq]
  constructor
  · rintro ⟨a, ha, b, hb, rfl, rfl⟩
    exact ⟨hb, ha⟩
  · rintro ⟨hx, hy⟩
    exact ⟨y, hy, x, hx, rfl, rfl⟩

theorem mem_colMajor {w h x y : ℕ} : (x, y) ∈ colMajor w h ↔ x < w ∧ y < h := by
  simp only [colMajor, List.mem_flatMap, List.mem_map, List.mem_range, Prod.mk.injEq]
  constructor
  · rintro ⟨a, ha, b, hb, rfl, rfl⟩
    exact ⟨ha, hb⟩
  · rintro ⟨hx, hy⟩
    exact ⟨x, hx, y, hy, rfl, rfl⟩

theorem pixel_base_bound {x y w h : ℕ} (hx : x < w) (hy : y < h) :
    (y * w + x) * 3 + 3 ≤ w * h * 3 := by
  have h1 : y * w + x + 1 ≤ w * h := by
    have h2 : y * w + x + 1 ≤ (y + 1) * w := by
      have : (y + 1) * w = y * w + w := by ring
      omega
    have h3 : (y + 1) * w ≤ h * w := Nat.mul_le_mul_right w hy
    have h4 : h * w = w * h := Nat.mul_comm h w
    omega
  revert h1
  generalize y * w + x = A
  generalize w * h = B
  intro h1
  omega

theorem pixel_base_ne {w x y x' y' : ℕ} (hx : x < w) (hx' : x' < w)
    (hne : ¬(x = x' ∧ y = y')) : y * w + x ≠ y' * w + x' := by
  intro heq
  rcases Nat.lt_trichotomy y y' with hlt | hEq | hgt
  · have : y * w + x < y' * w + x' := by
      have h2 : (y + 1) * w ≤ y' * w := Nat.mul_le_mul_right w hlt
      have h3 : (y + 1) * w = y * w + w := by ring
      omega
    omega
  · subst hEq
    omega
  · have : y' * w + x' < y * w + x := by
      have h2 : (y' + 1) * w ≤ y * w := Nat.mul_le_mul_right w hgt
      have h3 : (y' + 1) * w = y' * w + w := by ring
      omega
    omega

/-! ### The bilinear sampler: totality, range, and the spec's weight formula -/

theorem getZ_isSome {l : Pixels} {i : ℤ} (h0 : 0 ≤ i)
    (hi : i < (l.length : ℤ)) : ∃ v, getZ l i = some v := by
  have hneg : ¬ i < 0 := not_lt.mpr h0
  simp only [getZ, hneg, if_false, if_pos h0]
  exact ⟨_, List.getElem?_eq_getElem (by omega)⟩

theorem corner_index_ok {width height : ℕ} {a b : ℤ} {ch : ℕ} (hw : 1 ≤ width)
    (ha0 : 0 ≤ a) (ha1 : a ≤ (height : ℤ) - 1) (hb0 : 0 ≤ b)
    (hb1 : b ≤ (width : ℤ) - 1) (hch : ch ≤ 2) :
    0 ≤ (a * width + b) * 3 + ch ∧
      (a * width + b) * 3 + ch < ((width * height * 3 : ℕ) : ℤ) := by
  have haw : 0 ≤ a * (width : ℤ) := mul_nonneg ha0 (by positivity)
  have hch' : (ch : ℤ) ≤ 2 := by exact_mod_cast hch
  have hch0 : (0 : ℤ) ≤ ch := by positivity
  constructor
  · have : (0 : ℤ) ≤ (a * width + b) * 3 := by positivity
    linarith
  · have hmul : a * (width : ℤ) ≤ ((height : ℤ) - 1) * width :=
      mul_le_mul_of_nonneg_right ha1 (by positivity)
    push_cast
    nlinarith [hmul, hb1, hch']

/-- The blended channel value exactly as the spec's §4.1 writes it: a weighted
sum of the four corner samples with weights `(1-dx)(1-dy)`, `dx(1-dy)`,
`(1-dx)dy`, `dx*dy`, over the same clamped coordinates and corner indices as
the code. -/
def spec_blend (pixels : Pixels) (width height : ℕ) (fx fy : ℚ)
    (channel : ℕ) : ℚ :=
  let fx := min (max fx 0) ((width : ℚ) - 1)
  let fy := min (max fy 0) ((height : ℚ) - 1)
  let x0 : ℤ := ⌊fx⌋
  let y0 : ℤ := ⌊fy⌋
  let x1 : ℤ := min ((width : ℤ) - 1) (x0 + 1)
  let y1 : ℤ := min ((height : ℤ) - 1) (y0 + 1)
  let dx : ℚ := fx - (x0 : ℚ)
  let dy : ℚ := fy - (y0 : ℚ)
  let p00 : ℚ := (((getZ pixels ((y0 * width + x0) * 3 + channel)).getD 0 : ℤ) : ℚ)
  let p10 : ℚ := (((getZ pixels ((y0 * width + x1) * 3 + channel)).getD 0 : ℤ) : ℚ)
  let p01 : ℚ := (((getZ pixels ((y1 * width + x0) * 3 + channel)).getD 0 : ℤ) : ℚ)
  let p11 : ℚ := (((getZ pixels ((y1 * width + x1) * 3 + channel)).getD 0 : ℤ) : ℚ)
  (1 - dx) * (1 - dy) * p00 + dx * (1 - dy) * p10 +
    (1 - dx) * dy * p01 + dx * dy * p11

theorem bilinearChannel_eq {pixels : Pixels} {width height : ℕ}
    (hw : 1 ≤ width) (hh : 1 ≤ height)
    (hlen : pixels.length = width * height * 3) (fx fy : ℚ) (channel : ℕ)
    (hch : channel ≤ 2) :
    bilinearChannel pixels width height fx fy channel =
      some (py_round (min 255 (max 0
        (spec_blend pixels width height fx fy channel)))) := by
  simp only [bilinearChannel, spec_blend]
  set gx : ℚ := min (max fx 0) ((width : ℚ) - 1) with hgx
  set gy : ℚ := min (max fy 0) ((height : ℚ) - 1) with hgy
  set x0 : ℤ := ⌊gx⌋ with hx0def
  set y0 : ℤ := ⌊gy⌋ with hy0def
  set x1 : ℤ := min ((width : ℤ) - 1) (x0 + 1) with hx1def
  set y1 : ℤ := min ((height : ℤ) - 1) (y0 + 1) with hy1def
  have hwQ : (1 : ℚ) ≤ (width : ℚ) := by exact_mod_cast hw
  have hhQ : (1 : ℚ) ≤ (height : ℚ) := by exact_mod_cast hh
  have hgx0 : 0 ≤ gx := le_min (le_max_right _ _) (by linarith)
  have hgx1 : gx ≤ (width : ℚ) - 1 := min_le_right _ _
  have hgy0 : 0 ≤ gy := le_min (le_max_right _ _) (by linarith)
  have hgy1 : gy ≤ (height : ℚ) - 1 := min_le_right _ _
  have hx00 : 0 ≤ x0 := Int.le_floor.mpr (by exact_mod_cast hgx0)
  have hx01 : x0 ≤ (width : ℤ) - 1 := by
    have h := le_trans (Int.floor_le gx) hgx1
    rw [hx0def]
    exact_mod_cast h
  have hy00 : 0 ≤ y0 := Int.le_floor.mpr (by exact_mod_cast hgy0)
  have hy01 : y0 ≤ (height : ℤ) - 1 := by
    have h := le_trans (Int.floor_le gy) hgy1
    rw [hy0def]
    exact_mod_cast h
  have hx10 : 0 ≤ x1 := le_min (by omega) (by omega)
  have hx11 : x1 ≤ (width : ℤ) - 1 := min_le_left _ _
  have hy10 : 0 ≤ y1 := le_min (by omega) (by omega)
  have hy11 : y1 ≤ (height : ℤ) - 1 := min_le_left _ _
  have hlenZ : ((width * height * 3 : ℕ) : ℤ) = (pixels.length : ℤ) := by
    rw [hlen]
  have hb00 := corner_index_ok hw hy00 hy01 hx00 hx01 hch
  have hb10 := corner_index_ok hw hy00 hy01 hx10 hx11 hch
  have hb01 := corner_index_ok hw hy10 hy11 hx00 hx01 hch
  have hb11 := corner_index_ok hw hy10 hy11 hx10 hx11 hch
  obtain ⟨v00, h00⟩ := getZ_isSome hb00.1 (by rw [← hlenZ]; exact hb00.2)
  obtain ⟨v10, h10⟩ := getZ_isSome hb10.1 (by rw [← hlenZ]; exact hb10.2)
  obtain ⟨v01, h01⟩ := getZ_isSome hb01.1 (by rw [← hlenZ]; exact hb01.2)
  obtain ⟨v11, h11⟩ := getZ_isSome hb11.1 (by rw [← hlenZ]; exact hb11.2)
  rw [h00, h10, h01, h11]
  simp only [Option.bind_eq_bind, Option.some_bind, Option.getD_some,
    Option.pure_def]
  congr 4
  ring1

theorem bilinear_sample_eq {pixels : Pixels} {width height : ℕ}
    (hw : 1 ≤ width) (hh : 1 ≤ height)
    (hlen : pixels.length = width * height * 3) (fx fy : ℚ) :
    bilinear_sample pixels width height fx fy =
      some [py_round (min 255 (max 0 (spec_blend pixels width height fx fy 0))),
        py_round (min 255 (max 0 (spec_blend pixels width height fx fy 1))),
        py_round (min 255 (max 0 (spec_blend pixels width height fx fy 2)))] := by
  unfold bilinear_sample
  rw [bilinearChannel_eq hw hh hlen fx fy 0 (by norm_num),
    bilinearChannel_eq hw hh hlen fx fy 1 (by norm_num),
    bilinearChannel_eq hw hh hlen fx fy 2 (by norm_num)]
  rfl

theorem bilinear_sample_shape {pixels : Pixels} {width height : ℕ}
    {fx fy : ℚ} {r : Pixels}
    (hr : bilinear_sample pixels width height fx fy = some r) :
    r.length = 3 := by
  unfold bilinear_sample at hr
  cases h0 : bilinearChannel pixels width height fx fy 0 with
  | none =>
    rw [h0] at hr
    simp only [Option.bind_eq_bind, Option.none_bind] at hr
    exact Option.noConfusion hr
  | some c0 =>
    cases h1 : bilinearChannel pixels width height fx fy 1 with
    | none =>
      rw [h0, h1] at hr
      simp only [Option.bind_eq_bind, Option.some_bind, Option.none_bind] at hr
      exact Option.noConfusion hr
    | some c1 =>
      cases h2 : bilinearChannel pixels width height fx fy 2 with
      | none =>
        rw [h0, h1, h2] at hr
        simp only [Option.bind_eq_bind, Option.some_bind, Option.none_bind] at hr
        exact Option.noConfusion hr
      | some c2 =>
        rw [h0, h1, h2] at hr
        simp only [Option.bind_eq_bind, Option.some_bind, Option.pure_def,
          Option.some.injEq] at hr
        rw [← hr]
        rfl


/-! ### Loop lemmas: buffer lengths, totality, and draw counting -/

theorem bilinear_sample_isSome {pixels : Pixels} {width height : ℕ}
    (hw : 1 ≤ width) (hh : 1 ≤ height)
    (hlen : pixels.length = width * height * 3) (fx fy : ℚ) :
    ∃ r, bilinear_sample pixels width height fx fy = some r :=
  ⟨_, bilinear_sample_eq hw hh hlen fx fy⟩

theorem scaleLoop_length {pixels : Pixels} {width height : ℕ} {invx invy : ℚ}
    {nw nh : ℕ} (coords : List (ℕ × ℕ)) :
    ∀ (acc out : Pixels), (∀ p ∈ coords, p.1 < nw ∧ p.2 < nh) →
      acc.length = nw * nh * 3 →
      scaleLoop pixels width height invx invy nw coords acc = some out →
      out.length = nw * nh * 3 := by
  induction coords with
  | nil =>
    intro acc out _ hacc hrun
    simp only [scaleLoop] at hrun
    injection hrun with h
    rw [← h]
    exact hacc
  | cons p rest ih =>
    obtain ⟨x, y⟩ := p
    intro acc out hco hacc hrun
    have hx1 : x < nw := (hco (x, y) (List.mem_cons_self _ _)).1
    have hy1 : y < nh := (hco (x, y) (List.mem_cons_self _ _)).2
    simp only [scaleLoop] at hrun
    obtain ⟨t, heq, hrun⟩ := Option.bind_eq_some.mp hrun
    have ht3 : t.length = 3 := bilinear_sample_shape heq
    have hbound := pixel_base_bound hx1 hy1
    refine ih _ out (fun q hq => hco q (List.mem_cons_of_mem _ hq)) ?_ hrun
    refine Eq.trans (slice_set3_length ht3 ?_) hacc
    omega

theorem scaleLoop_total {pixels : Pixels} {width height : ℕ} {invx invy : ℚ}
    {nw : ℕ} (hw : 1 ≤ width) (hh : 1 ≤ height)
    (hlen : pixels.length = width * height * 3) (coords : List (ℕ × ℕ)) :
    ∀ acc : Pixels, ∃ out,
      scaleLoop pixels width height invx invy nw coords acc = some out := by
  induction coords with
  | nil => exact fun acc => ⟨acc, rfl⟩
  | cons p rest ih =>
    obtain ⟨x, y⟩ := p
    intro acc
    simp only [scaleLoop]
    obtain ⟨t, ht⟩ := bilinear_sample_isSome hw hh hlen
      (((x : ℚ) + 1/2) * invx - 1/2) (((y : ℚ) + 1/2) * invy - 1/2)
    rw [ht]
    simp only [Option.some_bind]
    exact ih _

theorem rotateLoop_length {pixels : Pixels} {width height : ℕ}
    {cosA sinA cx cy nx ny : ℚ} {nw nh : ℕ} (coords : List (ℕ × ℕ)) :
    ∀ (acc out : Pixels), (∀ p ∈ coords, p.1 < nw ∧ p.2 < nh) →
      acc.length = nw * nh * 3 →
      rotateLoop pixels width height cosA sinA cx cy nx ny nw coords acc =
        some out →
      out.length = nw * nh * 3 := by
  induction coords with
  | nil =>
    intro acc out _ hacc hrun
    simp only [rotateLoop] at hrun
    injection hrun with h
    rw [← h]
    exact hacc
  | cons p rest ih =>
    obtain ⟨x, y⟩ := p
    intro acc out hco hacc hrun
    have hx1 : x < nw := (hco (x, y) (List.mem_cons_self _ _)).1
    have hy1 : y < nh := (hco (x, y) (List.mem_cons_self _ _)).2
    simp only [rotateLoop] at hrun
    split at hrun
    · obtain ⟨t, heq, hrun⟩ := Option.bind_eq_some.mp hrun
      have ht3 : t.length = 3 := bilinear_sample_shape heq
      have hbound := pixel_base_bound hx1 hy1
      refine ih _ out (fun q hq => hco q (List.mem_cons_of_mem _ hq)) ?_ hrun
      refine Eq.trans (slice_set3_length ht3 ?_) hacc
      omega
    · exact ih _ out (fun q hq => hco q (List.mem_cons_of_mem _ hq)) hacc hrun

theorem rotateLoop_total {pixels : Pixels} {width height : ℕ}
    {cosA sinA cx cy nx ny : ℚ} {nw : ℕ}
    (hlen : pixels.length = width * height * 3) (coords : List (ℕ × ℕ)) :
    ∀ acc : Pixels, ∃ out,
      rotateLoop pixels width height cosA sinA cx cy nx ny nw coords acc =
        some out := by
  induction coords with
  | nil => exact fun acc => ⟨acc, rfl⟩
  | cons p rest ih =>
    obtain ⟨x, y⟩ := p
    intro acc
    simp only [rotateLoop]
    by_cases hcond : 0 ≤ cosA * ((x : ℚ) - nx) + sinA * ((y : ℚ) - ny) + cx ∧
        cosA * ((x : ℚ) - nx) + sinA * ((y : ℚ) - ny) + cx ≤ (width : ℚ) - 1 ∧
        0 ≤ -sinA * ((x : ℚ) - nx) + cosA * ((y : ℚ) - ny) + cy ∧
        -sinA * ((x : ℚ) - nx) + cosA * ((y : ℚ) - ny) + cy ≤ (height : ℚ) - 1
    · rw [if_pos hcond]
      have hw1 : 1 ≤ width := by
        have h0 : (0 : ℚ) ≤ (width : ℚ) - 1 := le_trans hcond.1 hcond.2.1
        have h1 : (1 : ℚ) ≤ (width : ℚ) := by linarith
        exact_mod_cast h1
      have hh1 : 1 ≤ height := by
        have h0 : (0 : ℚ) ≤ (height : ℚ) - 1 :=
          le_trans hcond.2.2.1 hcond.2.2.2
        have h1 : (1 : ℚ) ≤ (height : ℚ) := by linarith
        exact_mod_cast h1
      obtain ⟨t, ht⟩ := bilinear_sample_isSome hw1 hh1 hlen
        (cosA * ((x : ℚ) - nx) + sinA * ((y : ℚ) - ny) + cx)
        (-sinA * ((x : ℚ) - nx) + cosA * ((y : ℚ) - ny) + cy)
      rw [ht]
      simp only [Option.some_bind]
      exact ih _
    · rw [if_neg hcond]
      exact ih _

theorem skewHLoop_length {pixels : Pixels} {width nw : ℕ} {slope minShift : ℚ}
    {hgt : ℕ} (hpix : pixels.length = width * hgt * 3)
    (coords : List (ℕ × ℕ)) :
    ∀ acc : Pixels, (∀ p ∈ coords, p.1 < width ∧ p.2 < hgt) →
      acc.length = nw * hgt * 3 →
      (skewHLoop pixels width nw slope minShift coords acc).length =
        nw * hgt * 3 := by
  induction coords with
  | nil => exact fun acc _ hacc => hacc
  | cons p rest ih =>
    obtain ⟨x, y⟩ := p
    intro acc hco hacc
    have hx1 : x < width := (hco (x, y) (List.mem_cons_self _ _)).1
    have hy1 : y < hgt := (hco (x, y) (List.mem_cons_self _ _)).2
    have hsrc := pixel_base_bound hx1 hy1
    simp only [skewHLoop]
    split
    · exact ih _ (fun q hq => hco q (List.mem_cons_of_mem _ hq)) hacc
    · next hguard =>
      push_neg at hguard
      have hdest : (py_round ((x : ℚ) + slope * (y : ℚ) - minShift)).toNat < nw := by
        omega
      have hdst := pixel_base_bound hdest hy1
      refine ih _ (fun q hq => hco q (List.mem_cons_of_mem _ hq)) ?_
      refine Eq.trans (slice_set3_length (slice_get3_length (by omega)) ?_) hacc
      omega

theorem skewVLoop_length {pixels : Pixels} {width nh : ℕ} {slope minShift : ℚ}
    {hgt : ℕ} (hpix : pixels.length = width * hgt * 3)
    (coords : List (ℕ × ℕ)) :
    ∀ acc : Pixels, (∀ p ∈ coords, p.1 < width ∧ p.2 < hgt) →
      acc.length = nh * width * 3 →
      (skewVLoop pixels width nh slope minShift coords acc).length =
        nh * width * 3 := by
  induction coords with
  | nil => exact fun acc _ hacc => hacc
  | cons p rest ih =>
    obtain ⟨x, y⟩ := p
    intro acc hco hacc
    have hx1 : x < width := (hco (x, y) (List.mem_cons_self _ _)).1
    have hy1 : y < hgt := (hco (x, y) (List.mem_cons_self _ _)).2
    have hsrc := pixel_base_bound hx1 hy1
    simp only [skewVLoop]
    split
    · exact ih _ (fun q hq => hco q (List.mem_cons_of_mem _ hq)) hacc
    · next hguard =>
      push_neg at hguard
      have hdest : (py_round ((y : ℚ) + slope * (x : ℚ) - minShift)).toNat < nh := by
        omega
      have hdst := pixel_base_bound hx1 hdest
      have hcomm : width * nh * 3 = nh * width * 3 := by ring
      refine ih _ (fun q hq => hco q (List.mem_cons_of_mem _ hq)) ?_
      refine Eq.trans (slice_set3_length (slice_get3_length (by omega)) ?_) hacc
      omega

theorem blotLoop_length {width : ℕ} {cx cy : ℚ} {radiusSq : ℤ}
    {color : ℤ × ℤ × ℤ} {hgt : ℕ} (coords : List (ℕ × ℕ)) :
    ∀ acc : Pixels, (∀ p ∈ coords, p.1 < width ∧ p.2 < hgt) →
      acc.length = width * hgt * 3 →
      (blotLoop width cx cy radiusSq color coords acc).length =
        width * hgt * 3 := by
  induction coords with
  | nil => exact fun acc _ hacc => hacc
  | cons p rest ih =>
    obtain ⟨x, y⟩ := p
    intro acc hco hacc
    have hx1 : x < width := (hco (x, y) (List.mem_cons_self _ _)).1
    have hy1 : y < hgt := (hco (x, y) (List.mem_cons_self _ _)).2
    have hbound := pixel_base_bound hx1 hy1
    simp only [blotLoop]
    split
    · refine ih _ (fun q hq => hco q (List.mem_cons_of_mem _ hq)) ?_
      refine Eq.trans (slice_set3_length rfl ?_) hacc
      omega
    · exact ih _ (fun q hq => hco q (List.mem_cons_of_mem _ hq)) hacc

theorem borderLoop_length {width height : ℕ} {thickness : ℤ} {density : ℚ}
    {g : RNG} (coords : List (ℕ × ℕ)) :
    ∀ (px : Pixels) (k : ℕ), (∀ p ∈ coords, p.1 < width ∧ p.2 < height) →
      px.length = width * height * 3 →
      ((borderLoop width height thickness density g coords (px, k)).1).length =
        width * height * 3 := by
  induction coords with
  | nil => exact fun px k _ hacc => hacc
  | cons p rest ih =>
    obtain ⟨x, y⟩ := p
    intro px k hco hacc
    have hx1 : x < width := (hco (x, y) (List.mem_cons_self _ _)).1
    have hy1 : y < height := (hco (x, y) (List.mem_cons_self _ _)).2
    have hbound := pixel_base_bound hx1 hy1
    simp only [borderLoop]
    split
    · split
      · refine ih _ _ (fun q hq => hco q (List.mem_cons_of_mem _ hq)) ?_
        refine Eq.trans (slice_set3_length rfl ?_) hacc
        omega
      · exact ih _ _ (fun q hq => hco q (List.mem_cons_of_mem _ hq)) hacc
    · exact ih _ _ (fun q hq => hco q (List.mem_cons_of_mem _ hq)) hacc

/-- The number of random draws `add_border_noise` consumes, written as the
amended claim describes it: iterating in row-major order, a pixel in the
border band consumes one inclusion draw, plus one value draw exactly when
the inclusion draw is below the density; a pixel outside the band consumes
none. -/
def specBorderDraws (width height : ℕ) (thickness : ℤ) (density : ℚ)
    (g : RNG) : List (ℕ × ℕ) → ℕ → ℕ
  | [], k => k
  | (x, y) :: rest, k =>
    if in_border_band width height thickness x y then
      if g.rnd k < density then
        specBorderDraws width height thickness density g rest (k + 2)
      else
        specBorderDraws width height thickness density g rest (k + 1)
    else specBorderDraws width height thickness density g rest k

theorem borderLoop_draws {width height : ℕ} {thickness : ℤ} {density : ℚ}
    {g : RNG} (coords : List (ℕ × ℕ)) :
    ∀ (px : Pixels) (k : ℕ),
      (borderLoop width height thickness density g coords (px, k)).2 =
        specBorderDraws width height thickness density g coords k := by
  induction coords with
  | nil => exact fun px k => rfl
  | cons p rest ih =>
    obtain ⟨x, y⟩ := p
    intro px k
    simp only [borderLoop, specBorderDraws]
    split_ifs with h1 h2
    · exact ih _ _
    · exact ih _ _
    · exact ih _ _

/-! ### Claim C5: identity parameters are exact no-ops -/

/-- C5: `scale(img,1,1)`, `shear(img,0)` (both axes), `rotate(img,0)`,
`add_border_noise(img,0,d,s)` and `apply_ink_blot(img,0,c)` all return the
input image unchanged — same width, same height, every pixel equal. -/
theorem c5_identity_stages (px : Pixels) (w h : ℕ) :
    scale_image px w h 1 1 = some (w, h, px) ∧
    skew_horizontal px w h 0 = (w, h, px) ∧
    skew_vertical px w h 0 = (w, h, px) ∧
    (∀ c s : ℚ, rotate_image px w h 0 c s = some (w, h, px)) ∧
    (∀ (d : ℚ) (g : RNG), (add_border_noise px w h 0 d g).1 = px) ∧
    (∀ col : Option (ℤ × ℤ × ℤ), apply_ink_blot px w h 0 col = px) := by
  have hne1 : nearly_equal (1 : ℚ) 1 := by norm_num [nearly_equal, EPSILON]
  have hne0 : nearly_equal (0 : ℚ) 0 := by norm_num [nearly_equal, EPSILON]
  refine ⟨?_, ?_, ?_, ?_, ?_, ?_⟩
  · unfold scale_image
    rw [if_pos ⟨hne1, hne1⟩]
  · unfold skew_horizontal
    rw [if_pos (Or.inl hne0)]
  · unfold skew_vertical
    rw [if_pos (Or.inl hne0)]
  · intro c s
    unfold rotate_image
    rw [if_pos hne0]
  · intro d g
    unfold add_border_noise
    rw [if_pos (Or.inl le_rfl)]
  · intro col
    cases col with
    | none => rfl
    | some c =>
      simp only [apply_ink_blot]
      rw [if_pos (Or.inl le_rfl)]

/-! ### Claim C1: scale totality -/

/-- C1 counterexample: at a scale factor of exactly 0 the source evaluates
`1.0 / scale_x` and raises `ZeroDivisionError` (modelled as `none`) instead
of returning a degenerate image, so "scale_image never fails ... including a
factor equal to 0" is false. -/
theorem c1_scale_zero_counterexample :
    scale_image [0, 0, 0] 1 1 0 1 = none := by
  have hguard : ¬(nearly_equal (0 : ℚ) 1 ∧ nearly_equal (1 : ℚ) 1) := by
    rintro ⟨ha, -⟩
    norm_num [nearly_equal, EPSILON] at ha
  unfold scale_image
  rw [if_neg hguard, if_pos (Or.inl rfl)]

/-- C1 amended: for every well-formed image and every pair of NONZERO scale
factors (negative factors included), `scale_image` never fails and returns
an image whose dimensions are each floored at minimum 1; a factor of exactly
0 raises `ZeroDivisionError` instead. -/
theorem c1_scale_nonzero_total (px : Pixels) (w h : ℕ) (sx sy : ℚ)
    (hw : 1 ≤ w) (hh : 1 ≤ h) (hlen : px.length = w * h * 3)
    (hsx : sx ≠ 0) (hsy : sy ≠ 0) :
    ∃ nw nh npx, scale_image px w h sx sy = some (nw, nh, npx) ∧
      1 ≤ nw ∧ 1 ≤ nh := by
  unfold scale_image
  split_ifs with h1 h2
  · exact ⟨w, h, px, rfl, hw, hh⟩
  · cases h2 with
    | inl h0 => exact absurd h0 hsx
    | inr h0 => exact absurd h0 hsy
  · dsimp only
    obtain ⟨out, hout⟩ := @scaleLoop_total px w h (1 / sx) (1 / sy)
      ((max 1 (py_round ((w : ℚ) * sx))).toNat) hw hh hlen
      (rowMajor ((max 1 (py_round ((w : ℚ) * sx))).toNat)
        ((max 1 (py_round ((h : ℚ) * sy))).toNat))
      (List.replicate ((max 1 (py_round ((w : ℚ) * sx))).toNat *
        (max 1 (py_round ((h : ℚ) * sy))).toNat * 3) 255)
    refine ⟨(max 1 (py_round ((w : ℚ) * sx))).toNat,
      (max 1 (py_round ((h : ℚ) * sy))).toNat, out, ?_, ?_, ?_⟩
    · rw [hout]
      rfl
    · have := le_max_left 1 (py_round ((w : ℚ) * sx))
      omega
    · have := le_max_left 1 (py_round ((h : ℚ) * sy))
      omega

/-- C1 witness. -/
theorem c1_scale_nonzero_total_witness :
    ∃ nw nh npx, scale_image [0, 0, 0] 1 1 2 2 = some (nw, nh, npx) ∧
      1 ≤ nw ∧ 1 ≤ nh :=
  c1_scale_nonzero_total [0, 0, 0] 1 1 2 2 le_rfl le_rfl rfl
    (by norm_num) (by norm_num)

/-! ### Claim C8: the bilinear sampler is safe -/

/-- C8: for every well-formed image and arbitrary coordinates (out-of-range
coordinates included), `bilinear_sample` performs no out-of-bounds buffer
access (it returns `some`, and by construction of the embedding it returns
`none` exactly when an index fell outside the buffer) and every channel of
the result lies in `[0, 255]`. -/
theorem c8_bilinear_safe (px : Pixels) (w h : ℕ) (fx fy : ℚ)
    (hw : 1 ≤ w) (hh : 1 ≤ h) (hlen : px.length = w * h * 3) :
    ∃ r, bilinear_sample px w h fx fy = some r ∧
      ∀ v ∈ r, 0 ≤ v ∧ v ≤ 255 := by
  refine ⟨_, bilinear_sample_eq hw hh hlen fx fy, ?_⟩
  intro v hv
  simp only [List.mem_cons, List.not_mem_nil, or_false] at hv
  rcases hv with rfl | rfl | rfl
  all_goals exact ⟨py_round_clamp_nonneg _, py_round_clamp_le _⟩

/-- C8 witness (coordinates far outside the image). -/
theorem c8_bilinear_safe_witness :
    ∃ r, bilinear_sample [0, 0, 0] 1 1 5 (-3) = some r ∧
      ∀ v ∈ r, 0 ≤ v ∧ v ≤ 255 :=
  c8_bilinear_safe [0, 0, 0] 1 1 5 (-3) le_rfl le_rfl rfl

/-! ### Claim C2: the sampler's rounding policy -/

/-- Rounding to the nearest integer with ties half away from zero — the tie
policy the claim asserts for the sampler. -/
def away_round (q : ℚ) : ℤ :=
  if q - ⌊q⌋ < 1/2 then ⌊q⌋
  else if 1/2 < q - ⌊q⌋ then ⌊q⌋ + 1
  else if 0 ≤ ⌊q⌋ then ⌊q⌋ + 1 else ⌊q⌋

/-- C2 counterexample: on the 2×1 image `[0,0,0, 1,1,1]` sampled at
`fx = 1/2`, the blended channel value is exactly `1/2`; rounding half away
from zero would give `1`, but the code (Python's `round`, ties to even)
returns `0`, so the sampler's output differs from the claim's prediction. -/
theorem c2_tie_counterexample :
    spec_blend [0, 0, 0, 1, 1, 1] 2 1 (1/2) 0 0 = 1/2 ∧
    away_round (min 255 (max 0 ((1 : ℚ)/2))) = 1 ∧
    bilinear_sample [0, 0, 0, 1, 1, 1] 2 1 (1/2) 0 = some [0, 0, 0] ∧
    bilinear_sample [0, 0, 0, 1, 1, 1] 2 1 (1/2) 0 ≠
      some [away_round (min 255 (max 0 (spec_blend [0, 0, 0, 1, 1, 1] 2 1 (1/2) 0 0))),
        away_round (min 255 (max 0 (spec_blend [0, 0, 0, 1, 1, 1] 2 1 (1/2) 0 1))),
        away_round (min 255 (max 0 (spec_blend [0, 0, 0, 1, 1, 1] 2 1 (1/2) 0 2)))] := by
  have h0 : spec_blend [0, 0, 0, 1, 1, 1] 2 1 (1/2) 0 0 = 1/2 := by
    norm_num [spec_blend, getZ]
    simp
  have h1 : spec_blend [0, 0, 0, 1, 1, 1] 2 1 (1/2) 0 1 = 1/2 := by
    norm_num [spec_blend, getZ]
    simp
  have h2 : spec_blend [0, 0, 0, 1, 1, 1] 2 1 (1/2) 0 2 = 1/2 := by
    norm_num [spec_blend, getZ]
    simp
  have heq := bilinear_sample_eq (by norm_num)
    (le_refl 1) (show ([0, 0, 0, 1, 1, 1] : Pixels).length = 2 * 1 * 3 from rfl)
    (1/2) 0
  have hpr : py_round (min 255 (max 0 ((1 : ℚ)/2))) = 0 := by norm_num [py_round]
  have haw : away_round (min 255 (max 0 ((1 : ℚ)/2))) = 1 := by
    norm_num [away_round]
  refine ⟨h0, haw, ?_, ?_⟩
  · rw [heq, h0, h1, h2, hpr]
  · intro hcontra
    rw [heq, h0, h1, h2, hpr, haw] at hcontra
    exact absurd hcontra (by decide)

/-- C2 amended: the sampler clamps the blended value (the spec's weighted
corner formula) to `[0,255]` and then rounds it to the nearest integer with
ties to even (Python's `round`): a blended channel value of exactly 0.5
yields 0 and exactly 2.5 yields 2, not 1 and 3. -/
theorem c2_bilinear_round_half_even (px : Pixels) (w h : ℕ) (fx fy : ℚ)
    (hw : 1 ≤ w) (hh : 1 ≤ h) (hlen : px.length = w * h * 3) :
    bilinear_sample px w h fx fy =
      some [py_round (min 255 (max 0 (spec_blend px w h fx fy 0))),
        py_round (min 255 (max 0 (spec_blend px w h fx fy 1))),
        py_round (min 255 (max 0 (spec_blend px w h fx fy 2)))] :=
  bilinear_sample_eq hw hh hlen fx fy

/-- C2 witness. -/
theorem c2_bilinear_round_half_even_witness :
    bilinear_sample [0, 0, 0, 1, 1, 1] 2 1 (1/2) 0 =
      some [py_round (min 255 (max 0 (spec_blend [0, 0, 0, 1, 1, 1] 2 1 (1/2) 0 0))),
        py_round (min 255 (max 0 (spec_blend [0, 0, 0, 1, 1, 1] 2 1 (1/2) 0 1))),
        py_round (min 255 (max 0 (spec_blend [0, 0, 0, 1, 1, 1] 2 1 (1/2) 0 2)))] :=
  c2_bilinear_round_half_even [0, 0, 0, 1, 1, 1] 2 1 (1/2) 0
    (by norm_num) le_rfl rfl

/-! ### Claim C4: the size invariant -/

theorem map_isSome_of_isSome {α β : Type} (f : α → β) {X : Option α}
    (h : ∃ o, X = some o) : ∃ out, X.map f = some out := by
  obtain ⟨o, rfl⟩ := h
  exact ⟨f o, rfl⟩

/-- A concrete draw sequence for witnesses: every inclusion draw yields 3/4
(so a density below 3/4 never selects a pixel), every value draw yields 0. -/
def rngHigh : RNG := ⟨fun _ => 3/4, fun _ => 0⟩

/-- C4: every transform stage preserves `pixels.length = width*height*3`,
for every input satisfying it and every parameter choice on which the stage
is defined (for the two `Option`-valued stages, whenever they return). -/
theorem c4_size_invariant (px : Pixels) (w h : ℕ)
    (hlen : px.length = w * h * 3) (sx sy aH aV deg c s : ℚ) (t rad : ℤ)
    (d : ℚ) (g : RNG) (col : Option (ℤ × ℤ × ℤ)) :
    (∀ nw nh npx, scale_image px w h sx sy = some (nw, nh, npx) →
      npx.length = nw * nh * 3) ∧
    ((skew_horizontal px w h aH).2.2.length =
      (skew_horizontal px w h aH).1 * (skew_horizontal px w h aH).2.1 * 3) ∧
    ((skew_vertical px w h aV).2.2.length =
      (skew_vertical px w h aV).1 * (skew_vertical px w h aV).2.1 * 3) ∧
    (∀ nw nh npx, rotate_image px w h deg c s = some (nw, nh, npx) →
      npx.length = nw * nh * 3) ∧
    ((add_border_noise px w h t d g).1.length = w * h * 3) ∧
    ((apply_ink_blot px w h rad col).length = w * h * 3) := by
  refine ⟨?_, ?_, ?_, ?_, ?_, ?_⟩
  · intro nw nh npx hs
    unfold scale_image at hs
    split_ifs at hs
    · simp only [Option.some.injEq, Prod.mk.injEq] at hs
      obtain ⟨rfl, rfl, rfl⟩ := hs
      exact hlen
    · dsimp only at hs
      rw [Option.map_eq_some'] at hs
      obtain ⟨out, hout, hpair⟩ := hs
      simp only [Prod.mk.injEq] at hpair
      obtain ⟨rfl, rfl, rfl⟩ := hpair
      exact scaleLoop_length _ _ out
        (fun p hp => by obtain ⟨a, b⟩ := p; exact mem_rowMajor.mp hp)
        (List.length_replicate _ _) hout
  · unfold skew_horizontal
    by_cases hg : nearly_equal aH 0 ∨ h = 0
    · rw [if_pos hg]
      exact hlen
    · rw [if_neg hg]
      dsimp only
      exact skewHLoop_length hlen _ _
        (fun p hp => by obtain ⟨a, b⟩ := p; exact mem_rowMajor.mp hp)
        (List.length_replicate _ _)
  · unfold skew_vertical
    by_cases hg : nearly_equal aV 0 ∨ w = 0
    · rw [if_pos hg]
      exact hlen
    · rw [if_neg hg]
      dsimp only
      rw [skewVLoop_length hlen (colMajor w h)
        (List.replicate ((h + (Int.ceil (max 0 aV - min 0 aV)).toNat) * w * 3) 255)
        (fun p hp => by obtain ⟨a, b⟩ := p; exact mem_colMajor.mp hp)
        (List.length_replicate _ _)]
      ring
  · intro nw nh npx hs
    unfold rotate_image at hs
    split_ifs at hs
    · simp only [Option.some.injEq, Prod.mk.injEq] at hs
      obtain ⟨rfl, rfl, rfl⟩ := hs
      exact hlen
    · dsimp only at hs
      rw [Option.map_eq_some'] at hs
      obtain ⟨out, hout, hpair⟩ := hs
      simp only [Prod.mk.injEq] at hpair
      obtain ⟨rfl, rfl, rfl⟩ := hpair
      exact rotateLoop_length _ _ out
        (fun p hp => by obtain ⟨a, b⟩ := p; exact mem_rowMajor.mp hp)
        (List.length_replicate _ _) hout
  · unfold add_border_noise
    split_ifs
    · exact hlen
    · exact borderLoop_length _ px 0
        (fun p hp => by obtain ⟨a, b⟩ := p; exact mem_rowMajor.mp hp) hlen
  · cases col with
    | none => exact hlen
    | some cc =>
      simp only [apply_ink_blot]
      split_ifs
      · exact hlen
      · exact blotLoop_length _ px
          (fun p hp => by obtain ⟨a, b⟩ := p; exact mem_rowMajor.mp hp) hlen

/-- C4 witness (the horizontal-shear conjunct at a concrete image). -/
theorem c4_size_invariant_witness :
    (skew_horizontal [1, 2, 3] 1 1 1).2.2.length =
      (skew_horizontal [1, 2, 3] 1 1 1).1 * (skew_horizontal [1, 2, 3] 1 1 1).2.1 * 3 :=
  (c4_size_invariant [1, 2, 3] 1 1 rfl 2 2 1 1 45 1 0 1 1 (1/2) rngHigh
    none).2.1

/-! ### Claim C7: rotation canvas dimensions -/

theorem rotate_image_total (px : Pixels) (w h : ℕ) (deg c s : ℚ)
    (hlen : px.length = w * h * 3) :
    ∃ out, rotate_image px w h deg c s = some out := by
  unfold rotate_image
  split_ifs with h1
  · exact ⟨_, rfl⟩
  · dsimp only
    exact map_isSome_of_isSome _ (rotateLoop_total hlen _ _)

/-- C7: whenever rotation is not a near-zero no-op, the output canvas
dimensions are `round(|w·cosθ| + |h·sinθ|)` by `round(|w·sinθ| + |h·cosθ|)`,
each replaced by 1 when the rounded value is 0; in particular a 4×4 image
rotated by 45° (cos and sin both ≈ 0.7071) yields a square canvas with
`width = height = round(4·(|cos45| + |sin45|)) = 6`.  The transcendental
cos/sin values enter the embedding as the parameters `c`, `s`. -/
theorem c7_rotate_canvas_dims :
    (∀ (px : Pixels) (w h : ℕ) (deg c s : ℚ) (nw nh : ℕ) (npx : Pixels),
      ¬ nearly_equal deg 0 →
      rotate_image px w h deg c s = some (nw, nh, npx) →
      (nw : ℤ) = (if py_round (|(w : ℚ) * c| + |(h : ℚ) * s|) = 0 then 1
        else py_round (|(w : ℚ) * c| + |(h : ℚ) * s|)) ∧
      (nh : ℤ) = (if py_round (|(w : ℚ) * s| + |(h : ℚ) * c|) = 0 then 1
        else py_round (|(w : ℚ) * s| + |(h : ℚ) * c|))) ∧
    (∀ (px : Pixels) (c s : ℚ) (nw nh : ℕ) (npx : Pixels),
      707/1000 ≤ c → c ≤ 708/1000 → 707/1000 ≤ s → s ≤ 708/1000 →
      rotate_image px 4 4 45 c s = some (nw, nh, npx) →
      nw = nh ∧ (nw : ℤ) = py_round (4 * (|c| + |s|)) ∧ nw = 6) := by
  have hdim : ∀ (px : Pixels) (w h : ℕ) (deg c s : ℚ) (nw nh : ℕ)
      (npx : Pixels), ¬ nearly_equal deg 0 →
      rotate_image px w h deg c s = some (nw, nh, npx) →
      nw = (if py_round (|(w : ℚ) * c| + |(h : ℚ) * s|) = 0 then 1
        else py_round (|(w : ℚ) * c| + |(h : ℚ) * s|)).toNat ∧
      nh = (if py_round (|(w : ℚ) * s| + |(h : ℚ) * c|) = 0 then 1
        else py_round (|(w : ℚ) * s| + |(h : ℚ) * c|)).toNat := by
    intro px w h deg c s nw nh npx hdeg hr
    unfold rotate_image at hr
    rw [if_neg hdeg] at hr
    dsimp only at hr
    rw [Option.map_eq_some'] at hr
    obtain ⟨out, hout, hpair⟩ := hr
    simp only [Prod.mk.injEq] at hpair
    exact ⟨hpair.1.symm, hpair.2.1.symm⟩
  constructor
  · intro px w h deg c s nw nh npx hdeg hr
    obtain ⟨hnw, hnh⟩ := hdim px w h deg c s nw nh npx hdeg hr
    have hw0 : 0 ≤ py_round (|(w : ℚ) * c| + |(h : ℚ) * s|) :=
      py_round_nonneg (by positivity)
    have hh0 : 0 ≤ py_round (|(w : ℚ) * s| + |(h : ℚ) * c|) :=
      py_round_nonneg (by positivity)
    subst hnw
    subst hnh
    constructor
    · rw [Int.toNat_of_nonneg (by split_ifs <;> omega)]
    · rw [Int.toNat_of_nonneg (by split_ifs <;> omega)]
  · intro px c s nw nh npx hc1 hc2 hs1 hs2 hr
    have hdeg : ¬ nearly_equal (45 : ℚ) 0 := by
      norm_num [nearly_equal, EPSILON]
    obtain ⟨hnw, hnh⟩ := hdim px 4 4 45 c s nw nh npx hdeg hr
    have habs : |((4 : ℕ) : ℚ) * c| + |((4 : ℕ) : ℚ) * s| = 4 * c + 4 * s := by
      push_cast
      rw [abs_of_nonneg (by linarith), abs_of_nonneg (by linarith)]
    have habs' : |((4 : ℕ) : ℚ) * s| + |((4 : ℕ) : ℚ) * c| = 4 * c + 4 * s := by
      push_cast
      rw [abs_of_nonneg (by linarith), abs_of_nonneg (by linarith)]
      ring
    have hround : py_round (4 * c + 4 * s) = 6 :=
      py_round_eq (by push_cast; linarith) (by push_cast; linarith)
    have habs2 : (4 : ℚ) * (|c| + |s|) = 4 * c + 4 * s := by
      rw [abs_of_nonneg (by linarith), abs_of_nonneg (by linarith)]
      ring
    rw [habs, hround] at hnw
    rw [habs', hround] at hnh
    norm_num at hnw hnh
    refine ⟨by omega, ?_, by omega⟩
    rw [habs2, hround]
    omega

/-- C7 witness: a concrete 4×4 rotation by 45°. -/
theorem c7_rotate_canvas_dims_witness :
    ∃ npx, rotate_image (List.replicate 48 0) 4 4 45 (7071/10000)
      (7071/10000) = some (6, 6, npx) := by
  obtain ⟨⟨nw, nh, npx⟩, hr⟩ := rotate_image_total (List.replicate 48 0) 4 4
    45 (7071/10000) (7071/10000) (by simp)
  obtain ⟨h1, h2, h3⟩ := c7_rotate_canvas_dims.2 (List.replicate 48 0)
    (7071/10000) (7071/10000) nw nh npx (by norm_num) (by norm_num)
    (by norm_num) (by norm_num) hr
  refine ⟨npx, ?_⟩
  rw [hr, show nw = 6 from h3, show nh = 6 from by omega]

/-! ### Claim C3: random draws consumed by the border-noise stage -/

/-- C3 counterexample: on a 1×1 image with thickness 1 and density 1/2, the
single pixel is in the border band, yet when the inclusion draw (3/4) is not
below the density only ONE draw is consumed, not the "exactly two" the claim
asserts per band pixel. -/
theorem c3_draws_counterexample :
    (add_border_noise [0, 0, 0] 1 1 1 (1/2) rngHigh).2 = 1 ∧
    (add_border_noise [0, 0, 0] 1 1 1 (1/2) rngHigh).2 ≠ 2 := by
  have hval : (add_border_noise [0, 0, 0] 1 1 1 (1/2) rngHigh).2 = 1 := by
    unfold add_border_noise
    rw [if_neg (by norm_num)]
    rw [show rowMajor 1 1 = [(0, 0)] from rfl]
    simp only [borderLoop]
    rw [if_pos (by decide), if_neg (by norm_num [rngHigh])]
  rw [hval]
  exact ⟨rfl, by omega⟩

/-- C3 amended: `add_border_noise` seeds one generator and walks the image
in row-major order; a border-band pixel consumes one inclusion draw plus one
value draw (an integer in `[0,255]`) exactly when the inclusion draw is
below the clamped density — i.e. one or two draws, not always two — and a
pixel outside the band consumes none.  `specBorderDraws` transcribes that
draw-accounting, and the generator's final position equals it. -/
theorem c3_border_draw_count (px : Pixels) (w h : ℕ) (t : ℤ) (d : ℚ)
    (g : RNG) (ht : 0 < t) (hd : 0 < d) :
    (add_border_noise px w h t d g).2 =
      specBorderDraws w h t (max 0 (min 1 d)) g (rowMajor w h) 0 := by
  unfold add_border_noise
  rw [if_neg (by simp only [not_or, not_le]; exact ⟨ht, hd⟩)]
  exact borderLoop_draws _ _ _

/-- C3 witness. -/
theorem c3_border_draw_count_witness :
    (add_border_noise [9, 9, 9] 1 1 1 (1/2) rngHigh).2 =
      specBorderDraws 1 1 1 (max 0 (min 1 (1/2))) rngHigh (rowMajor 1 1) 0 :=
  c3_border_draw_count [9, 9, 9] 1 1 1 (1/2) rngHigh (by norm_num)
    (by norm_num)

/-! ### Claim C10: the shear drop branch is unreachable -/

theorem skew_dest_in_range (size dim : ℕ) (a : ℚ) (pos i : ℕ)
    (hpos : pos < size) (hi : i < dim) :
    0 ≤ py_round ((pos : ℚ) +
        (if dim = 1 then 0 else a / ((dim : ℚ) - 1)) * (i : ℚ) - min 0 a) ∧
      py_round ((pos : ℚ) +
        (if dim = 1 then 0 else a / ((dim : ℚ) - 1)) * (i : ℚ) - min 0 a) <
      (size : ℤ) + (Int.ceil (max 0 a - min 0 a)).toNat := by
  set sh : ℚ := (if dim = 1 then 0 else a / ((dim : ℚ) - 1)) * (i : ℚ)
    with hsh
  have hshb : min 0 a ≤ sh ∧ sh ≤ max 0 a := by
    rcases eq_or_ne dim 1 with h1 | h1
    · rw [hsh, if_pos h1, zero_mul]
      exact ⟨min_le_left 0 a, le_max_left 0 a⟩
    · have hdim2 : 2 ≤ dim := by omega
      have hD : (2 : ℚ) ≤ (dim : ℚ) := by exact_mod_cast hdim2
      have hD0 : (0 : ℚ) < (dim : ℚ) - 1 := by linarith
      have hiD : (i : ℚ) ≤ (dim : ℚ) - 1 := by
        have h2 : (i : ℚ) + 1 ≤ (dim : ℚ) := by exact_mod_cast hi
        linarith
      have hi0 : (0 : ℚ) ≤ (i : ℚ) := by positivity
      rw [hsh, if_neg h1]
      rcases le_or_lt 0 a with ha | ha
      · have h01 : 0 ≤ a / ((dim : ℚ) - 1) := div_nonneg ha (le_of_lt hD0)
        constructor
        · exact le_trans (min_le_left 0 a) (mul_nonneg h01 hi0)
        · calc a / ((dim : ℚ) - 1) * (i : ℚ) ≤
              a / ((dim : ℚ) - 1) * ((dim : ℚ) - 1) :=
                mul_le_mul_of_nonneg_left hiD h01
            _ = a := div_mul_cancel₀ a (ne_of_gt hD0)
            _ ≤ max 0 a := le_max_right _ _
      · have h01 : a / ((dim : ℚ) - 1) ≤ 0 :=
          le_of_lt (div_neg_of_neg_of_pos ha hD0)
        constructor
        · calc min 0 a ≤ a := min_le_right _ _
            _ = a / ((dim : ℚ) - 1) * ((dim : ℚ) - 1) :=
                (div_mul_cancel₀ a (ne_of_gt hD0)).symm
            _ ≤ a / ((dim : ℚ) - 1) * (i : ℚ) :=
                mul_le_mul_of_nonpos_left hiD h01
        · have h2 : a / ((dim : ℚ) - 1) * (i : ℚ) ≤ 0 * (i : ℚ) :=
            mul_le_mul_of_nonneg_right h01 hi0
          rw [zero_mul] at h2
          exact le_trans h2 (le_max_left 0 a)
  have hq0 : 0 ≤ (pos : ℚ) + sh - min 0 a := by
    have hp0 : (0 : ℚ) ≤ (pos : ℚ) := by positivity
    have := hshb.1
    linarith
  have hqU : (pos : ℚ) + sh - min 0 a ≤
      (max 0 a - min 0 a) + ((size : ℚ) - 1) := by
    have hpq : (pos : ℚ) + 1 ≤ (size : ℚ) := by exact_mod_cast hpos
    have := hshb.2
    linarith
  constructor
  · exact py_round_nonneg hq0
  · have h1 := py_round_le_ceil ((pos : ℚ) + sh - min 0 a)
    have h2 : ⌈(pos : ℚ) + sh - min 0 a⌉ ≤
        ⌈(max 0 a - min 0 a) + ((size : ℚ) - 1)⌉ := Int.ceil_le_ceil hqU
    have h3 : ⌈(max 0 a - min 0 a) + ((size : ℚ) - 1)⌉ =
        ⌈max 0 a - min 0 a⌉ + ((size : ℤ) - 1) := by
      rw [show ((size : ℚ) - 1) = (((size : ℤ) - 1 : ℤ) : ℚ) by push_cast; ring]
      exact Int.ceil_add_int _ _
    have hΔ : 0 ≤ ⌈max 0 a - min 0 a⌉ :=
      Int.ceil_nonneg (sub_nonneg.mpr min_le_max)
    have htn : ((Int.ceil (max 0 a - min 0 a)).toNat : ℤ) =
        ⌈max 0 a - min 0 a⌉ := Int.toNat_of_nonneg hΔ
    omega

/-- C10: in both shear directions the scatter destination
`round(position + shift - min(0, amount))` of every source pixel lies in
`[0, new_dimension - 1]` — exactly the negation of the silent-drop guard in
`skewHLoop`/`skewVLoop` — so the drop branch is unreachable and no source
pixel is ever dropped. -/
theorem c10_skew_no_drop (w h : ℕ) (a : ℚ) (x y : ℕ)
    (hx : x < w) (hy : y < h) :
    (0 ≤ py_round ((x : ℚ) +
        (if h = 1 then 0 else a / ((h : ℚ) - 1)) * (y : ℚ) - min 0 a) ∧
      py_round ((x : ℚ) +
        (if h = 1 then 0 else a / ((h : ℚ) - 1)) * (y : ℚ) - min 0 a) <
        (w : ℤ) + (Int.ceil (max 0 a - min 0 a)).toNat) ∧
    (0 ≤ py_round ((y : ℚ) +
        (if w = 1 then 0 else a / ((w : ℚ) - 1)) * (x : ℚ) - min 0 a) ∧
      py_round ((y : ℚ) +
        (if w = 1 then 0 else a / ((w : ℚ) - 1)) * (x : ℚ) - min 0 a) <
        (h : ℤ) + (Int.ceil (max 0 a - min 0 a)).toNat) :=
  ⟨skew_dest_in_range w h a x y hx hy, skew_dest_in_range h w a y x hy hx⟩

/-- C10 witness. -/
theorem c10_skew_no_drop_witness :
    (0 ≤ py_round (((1 : ℕ) : ℚ) +
        (if (2 : ℕ) = 1 then 0 else (-7/2 : ℚ) / (((2 : ℕ) : ℚ) - 1)) *
          ((0 : ℕ) : ℚ) - min 0 (-7/2 : ℚ)) ∧
      py_round (((1 : ℕ) : ℚ) +
        (if (2 : ℕ) = 1 then 0 else (-7/2 : ℚ) / (((2 : ℕ) : ℚ) - 1)) *
          ((0 : ℕ) : ℚ) - min 0 (-7/2 : ℚ)) <
        ((3 : ℕ) : ℤ) + (Int.ceil (max 0 (-7/2 : ℚ) - min 0 (-7/2 : ℚ))).toNat) ∧
    (0 ≤ py_round (((0 : ℕ) : ℚ) +
        (if (3 : ℕ) = 1 then 0 else (-7/2 : ℚ) / (((3 : ℕ) : ℚ) - 1)) *
          ((1 : ℕ) : ℚ) - min 0 (-7/2 : ℚ)) ∧
      py_round (((0 : ℕ) : ℚ) +
        (if (3 : ℕ) = 1 then 0 else (-7/2 : ℚ) / (((3 : ℕ) : ℚ) - 1)) *
          ((1 : ℕ) : ℚ) - min 0 (-7/2 : ℚ)) <
        ((2 : ℕ) : ℤ) + (Int.ceil (max 0 (-7/2 : ℚ) - min 0 (-7/2 : ℚ))).toNat) :=
  c10_skew_no_drop 3 2 (-7/2) 1 0 (by norm_num) (by norm_num)

/-! ### Claim C6: the shear stages match the spec's description -/

/-- The per-row/column shift exactly as the claim words it:
`(a / (dimension - 1)) * i` for orthogonal dimension `> 1`, and `0`
otherwise. -/
def spec_shift (amount : ℚ) (dim : ℕ) (i : ℕ) : ℚ :=
  if 1 < dim then amount / ((dim : ℚ) - 1) * (i : ℚ) else 0

/-- The claim's destination index: `round(original_position + shift -
min(0, amount))`, with Python's `round`. -/
def spec_dest (amount : ℚ) (dim : ℕ) (pos i : ℕ) : ℤ :=
  py_round ((pos : ℚ) + spec_shift amount dim i - min 0 amount)

/-- The claim's enlarged canvas size along the sheared axis:
`size + ceil(max(0, amount) - min(0, amount))`. -/
def spec_new_size (size : ℕ) (amount : ℚ) : ℕ :=
  size + (Int.ceil (max 0 amount - min 0 amount)).toNat

/-- A row-scatter parametrized over the destination function: place each
source pixel verbatim at its destination column, silently dropping it when
the destination falls outside the canvas. -/
def specScatterH (pixels : Pixels) (width nw : ℕ) (dest : ℕ → ℕ → ℤ) :
    List (ℕ × ℕ) → Pixels → Pixels
  | [], acc => acc
  | (x, y) :: rest, acc =>
    let d := dest x y
    if d < 0 ∨ (nw : ℤ) ≤ d then specScatterH pixels width nw dest rest acc
    else
      specScatterH pixels width nw dest rest
        (slice_set3 acc ((y * nw + d.toNat) * 3)
          (slice_get3 pixels ((y * width + x) * 3)))

/-- The transpose twin of `specScatterH`, scattering along rows. -/
def specScatterV (pixels : Pixels) (width nh : ℕ) (dest : ℕ → ℕ → ℤ) :
    List (ℕ × ℕ) → Pixels → Pixels
  | [], acc => acc
  | (x, y) :: rest, acc =>
    let d := dest x y
    if d < 0 ∨ (nh : ℤ) ≤ d then specScatterV pixels width nh dest rest acc
    else
      specScatterV pixels width nh dest rest
        (slice_set3 acc ((d.toNat * width + x) * 3)
          (slice_get3 pixels ((y * width + x) * 3)))

/-- `skew_horizontal` as claim C6 describes it: canvas widened by
`ceil(max(0,a) - min(0,a))`, initialized to white, each source pixel placed
at `round(x + shift - min(0,a))`, out-of-canvas destinations dropped. -/
def spec_skew_horizontal (pixels : Pixels) (width height : ℕ) (a : ℚ) :
    ℕ × ℕ × Pixels :=
  let nw := spec_new_size width a
  (nw, height,
    specScatterH pixels width nw (fun x y => spec_dest a height x y)
      (rowMajor width height) (List.replicate (nw * height * 3) 255))

/-- `skew_vertical` as claim C6 describes it. -/
def spec_skew_vertical (pixels : Pixels) (width height : ℕ) (a : ℚ) :
    ℕ × ℕ × Pixels :=
  let nh := spec_new_size height a
  (width, nh,
    specScatterV pixels width nh (fun x y => spec_dest a width y x)
      (colMajor width height) (List.replicate (nh * width * 3) 255))

theorem specScatterH_eq_skewHLoop {pixels : Pixels} {width nw : ℕ}
    {slope minShift : ℚ} {dest : ℕ → ℕ → ℤ} (coords : List (ℕ × ℕ)) :
    (∀ p ∈ coords,
      dest p.1 p.2 = py_round ((p.1 : ℚ) + slope * (p.2 : ℚ) - minShift)) →
    ∀ acc, specScatterH pixels width nw dest coords acc =
      skewHLoop pixels width nw slope minShift coords acc := by
  induction coords with
  | nil => exact fun _ acc => rfl
  | cons p rest ih =>
    obtain ⟨x, y⟩ := p
    intro hco acc
    have hd : dest x y = py_round ((x : ℚ) + slope * (y : ℚ) - minShift) :=
      hco (x, y) (List.mem_cons_self _ _)
    simp only [specScatterH, skewHLoop, hd]
    split_ifs with hc
    · exact ih (fun q hq => hco q (List.mem_cons_of_mem _ hq)) acc
    · exact ih (fun q hq => hco q (List.mem_cons_of_mem _ hq)) _

theorem specScatterV_eq_skewVLoop {pixels : Pixels} {width nh : ℕ}
    {slope minShift : ℚ} {dest : ℕ → ℕ → ℤ} (coords : List (ℕ × ℕ)) :
    (∀ p ∈ coords,
      dest p.1 p.2 = py_round ((p.2 : ℚ) + slope * (p.1 : ℚ) - minShift)) →
    ∀ acc, specScatterV pixels width nh dest coords acc =
      skewVLoop pixels width nh slope minShift coords acc := by
  induction coords with
  | nil => exact fun _ acc => rfl
  | cons p rest ih =>
    obtain ⟨x, y⟩ := p
    intro hco acc
    have hd : dest x y = py_round ((y : ℚ) + slope * (x : ℚ) - minShift) :=
      hco (x, y) (List.mem_cons_self _ _)
    simp only [specScatterV, skewVLoop, hd]
    split_ifs with hc
    · exact ih (fun q hq => hco q (List.mem_cons_of_mem _ hq)) acc
    · exact ih (fun q hq => hco q (List.mem_cons_of_mem _ hq)) _

/-- C6: for a non-near-zero shear amount on an image with positive
dimensions, both shear stages coincide exactly with the spec's description
(canvas enlargement `ceil(max(0,a) - min(0,a))`, white initialization,
destination `round(position + shift - min(0,a))` with
`shift = (a/(dim-1))·i` for `dim > 1` and `0` otherwise, silent drop
outside the canvas). -/
theorem c6_shear_matches_spec (px : Pixels) (w h : ℕ) (a : ℚ)
    (hne : ¬ nearly_equal a 0) (hw : 1 ≤ w) (hh : 1 ≤ h) :
    skew_horizontal px w h a = spec_skew_horizontal px w h a ∧
    skew_vertical px w h a = spec_skew_vertical px w h a := by
  constructor
  · unfold skew_horizontal spec_skew_horizontal spec_new_size
    rw [if_neg (by push_neg; exact ⟨hne, by omega⟩)]
    dsimp only
    refine congrArg (fun l => (w + (Int.ceil (max 0 a - min 0 a)).toNat, h, l)) ?_
    refine (specScatterH_eq_skewHLoop _ ?_ _).symm
    intro p hp
    obtain ⟨x, y⟩ := p
    unfold spec_dest spec_shift
    rcases eq_or_ne h 1 with h1 | h1
    · rw [if_neg (by omega), if_pos h1]
      congr 1
      ring
    · rw [if_pos (by omega), if_neg h1]
  · unfold skew_vertical spec_skew_vertical spec_new_size
    rw [if_neg (by push_neg; exact ⟨hne, by omega⟩)]
    dsimp only
    refine congrArg (fun l => (w, h + (Int.ceil (max 0 a - min 0 a)).toNat, l)) ?_
    refine (specScatterV_eq_skewVLoop _ ?_ _).symm
    intro p hp
    obtain ⟨x, y⟩ := p
    unfold spec_dest spec_shift
    rcases eq_or_ne w 1 with h1 | h1
    · rw [if_neg (by omega), if_pos h1]
      congr 1
      ring
    · rw [if_pos (by omega), if_neg h1]

/-- C6 witness. -/
theorem c6_shear_matches_spec_witness :
    skew_horizontal [1, 2, 3] 1 1 2 = spec_skew_horizontal [1, 2, 3] 1 1 2 ∧
    skew_vertical [1, 2, 3] 1 1 2 = spec_skew_vertical [1, 2, 3] 1 1 2 :=
  c6_shear_matches_spec [1, 2, 3] 1 1 2
    (by norm_num [nearly_equal, EPSILON]) le_rfl le_rfl

/-! ### Claim C9: border noise only touches the band, and writes grayscale -/

/-- The three channels of the pixel at offset `base` agree in `pxa` and
`pxb`. -/
def pixel_triple_eq (pxa pxb : Pixels) (base : ℕ) : Prop :=
  ∀ ch, ch < 3 → pxa[base + ch]? = pxb[base + ch]?

/-- The pixel at offset `base` is a grayscale triplet `(v, v, v)` with
`v ∈ [0, 255]`. -/
def gray_triple (px : Pixels) (base : ℕ) : Prop :=
  ∃ v : ℤ, 0 ≤ v ∧ v ≤ 255 ∧ px[base]? = some v ∧
    px[base + 1]? = some v ∧ px[base + 2]? = some v

theorem borderLoop_content {width height : ℕ} {thickness : ℤ} {density : ℚ}
    {g : RNG} (px0 : Pixels) (coords : List (ℕ × ℕ)) :
    ∀ (px : Pixels) (k : ℕ),
      (∀ p ∈ coords, p.1 < width ∧ p.2 < height) →
      px.length = width * height * 3 →
      (∀ x y, x < width → y < height →
        pixel_triple_eq px px0 ((y * width + x) * 3) ∨
        (in_border_band width height thickness x y ∧
          gray_triple px ((y * width + x) * 3))) →
      ∀ x y, x < width → y < height →
        pixel_triple_eq
          ((borderLoop width height thickness density g coords (px, k)).1)
          px0 ((y * width + x) * 3) ∨
        (in_border_band width height thickness x y ∧
          gray_triple
            ((borderLoop width height thickness density g coords (px, k)).1)
            ((y * width + x) * 3)) := by
  induction coords with
  | nil => exact fun px k _ _ hinv => hinv
  | cons p rest ih =>
    obtain ⟨cx, cy⟩ := p
    intro px k hco hlen hinv
    have hcx : cx < width := (hco (cx, cy) (List.mem_cons_self _ _)).1
    have hcy : cy < height := (hco (cx, cy) (List.mem_cons_self _ _)).2
    have hbB := pixel_base_bound hcx hcy
    have hb : (cy * width + cx) * 3 + 3 ≤ px.length := by omega
    simp only [borderLoop]
    split_ifs with hband hincl
    · have h3 : ∀ v : ℤ, ([v, v, v] : Pixels).length = 3 := fun v => rfl
      refine ih _ _ (fun q hq => hco q (List.mem_cons_of_mem _ hq))
        (Eq.trans (slice_set3_length (h3 _) hb) hlen) ?_
      intro x y hx hy
      by_cases hsame : x = cx ∧ y = cy
      · obtain ⟨rfl, rfl⟩ := hsame
        refine Or.inr ⟨hband, ?_⟩
        refine ⟨((g.rvals (k + 1) % 256 : ℕ) : ℤ), by positivity, by omega,
          ?_, ?_, ?_⟩
        · rw [getElem?_slice_set3 (h3 _) hb, if_pos (by omega)]
          simp
        · rw [getElem?_slice_set3 (h3 _) hb, if_pos (by omega)]
          simp
        · rw [getElem?_slice_set3 (h3 _) hb, if_pos (by omega)]
          simp
      · have hneq : y * width + x ≠ cy * width + cx :=
          pixel_base_ne hx hcx hsame
        have huntouched : ∀ j, (y * width + x) * 3 ≤ j →
            j < (y * width + x) * 3 + 3 →
            (slice_set3 px ((cy * width + cx) * 3)
              [((g.rvals (k + 1) % 256 : ℕ) : ℤ),
                ((g.rvals (k + 1) % 256 : ℕ) : ℤ),
                ((g.rvals (k + 1) % 256 : ℕ) : ℤ)])[j]? = px[j]? := by
          intro j hj1 hj2
          rw [getElem?_slice_set3 (h3 _) hb, if_neg (by omega)]
        rcases hinv x y hx hy with heq | ⟨hband2, hgray⟩
        · refine Or.inl fun ch hch => ?_
          rw [huntouched _ (by omega) (by omega)]
          exact heq ch hch
        · refine Or.inr ⟨hband2, ?_⟩
          obtain ⟨v, hv0, hv1, e0, e1, e2⟩ := hgray
          exact ⟨v, hv0, hv1,
            by rw [huntouched _ (by omega) (by omega)]; exact e0,
            by rw [huntouched _ (by omega) (by omega)]; exact e1,
            by rw [huntouched _ (by omega) (by omega)]; exact e2⟩
    · exact ih _ _ (fun q hq => hco q (List.mem_cons_of_mem _ hq)) hlen hinv
    · exact ih _ _ (fun q hq => hco q (List.mem_cons_of_mem _ hq)) hlen hinv

/-- C9: pixels strictly inside the border band boundary
(`t ≤ x < width - t`, `t ≤ y < height - t`) are returned unchanged by
`add_border_noise`, and every pixel that differs from the input is a
grayscale triplet `(v, v, v)` with `v ∈ [0, 255]`. -/
theorem c9_border_frame (px : Pixels) (w h : ℕ) (t : ℤ) (d : ℚ) (g : RNG)
    (hlen : px.length = w * h * 3) :
    (∀ (x y ch : ℕ), t ≤ (x : ℤ) → (x : ℤ) < (w : ℤ) - t → t ≤ (y : ℤ) →
      (y : ℤ) < (h : ℤ) - t → ch < 3 →
      ((add_border_noise px w h t d g).1)[(y * w + x) * 3 + ch]? =
        px[(y * w + x) * 3 + ch]?) ∧
    (∀ x y, x < w → y < h →
      ¬ pixel_triple_eq (add_border_noise px w h t d g).1 px
        ((y * w + x) * 3) →
      gray_triple (add_border_noise px w h t d g).1 ((y * w + x) * 3)) := by
  by_cases hguard : t ≤ 0 ∨ d ≤ 0
  · have hcopy : add_border_noise px w h t d g = (px, 0) := by
      unfold add_border_noise
      rw [if_pos hguard]
    rw [hcopy]
    exact ⟨fun x y ch _ _ _ _ _ => rfl,
      fun x y _ _ hdiff => absurd (fun ch _ => rfl) hdiff⟩
  · have hrun : add_border_noise px w h t d g =
        borderLoop w h t (max 0 (min 1 d)) g (rowMajor w h) (px, 0) := by
      unfold add_border_noise
      rw [if_neg hguard]
    rw [not_or, not_le, not_le] at hguard
    have hstate := @borderLoop_content w h t (max 0 (min 1 d)) g px
      (rowMajor w h) px 0
      (fun q hq => by obtain ⟨a2, b2⟩ := q; exact mem_rowMajor.mp hq)
      hlen (fun x y _ _ => Or.inl fun ch _ => rfl)
    constructor
    · intro x y ch hx1 hx2 hy1 hy2 hch
      have hxw : x < w := by omega
      have hyh : y < h := by omega
      rcases hstate x y hxw hyh with heq | ⟨hband, -⟩
      · rw [hrun]
        exact heq ch hch
      · exfalso
        unfold in_border_band at hband
        omega
    · intro x y hx hy hdiff
      rw [hrun] at hdiff
      rcases hstate x y hx hy with heq | ⟨-, hgray⟩
      · exact absurd heq hdiff
      · rw [hrun]
        exact hgray

/-- C9 witness: the center pixel of a 3×3 image with thickness 1 is
untouched. -/
theorem c9_border_frame_witness :
    ((add_border_noise (List.replicate 27 9) 3 3 1 (1/2) rngHigh).1)[(1 * 3 + 1) * 3 + 0]? =
      (List.replicate 27 9 : Pixels)[(1 * 3 + 1) * 3 + 0]? :=
  (c9_border_frame (List.replicate 27 9) 3 3 1 (1/2) rngHigh (by simp)).1
    1 1 0 (by norm_num) (by norm_num) (by norm_num) (by norm_num)
    (by norm_num)
